import Mathlib

/-!
Verification development for the BitcoinAddressClustering repository.

The repository builds an "auxiliary graph" from a stream of Bitcoin
transactions (builder) and computes its connected components (analyzer).
Two builder generations are present in the sources:

* `src/builder.cpp` (v1.0): node identifiers are the raw integer addresses
  themselves (`atoi` of the first comma field); it tracks the maximum
  address `max_id`, writes `num_nodes = max_id + 1`, collects normalized
  `(min,max)` edges, sorts them and skips adjacent duplicates, and writes a
  big-endian binary file (each 32-bit word passes through
  `__builtin_bswap32` on a little-endian host).
* `src/unnamed/part_003` (builder v0.2): keeps an `unordered_map` from
  addresses to dense node ids assigned by an increasing counter, a
  `std::set` of edges, and builds a path through the sorted set of distinct
  input addresses of each transaction.

The analyzers are `src/clustering.cpp` (igraph) and `src/analyzer.cpp`
(lemon).  The connected-components computation itself lives in those
external libraries, so it is modelled from the spec (see `comp` below).

All machine integers are modelled as `Int`/`Nat`; 32-bit wrap-around is
applied explicitly in the codec (`enc32`).  Transactions are modelled at
the parsed level (`Tx`): the `atoi` value of the first comma-separated
field of every input/output entry, in stream order.  The character-level
tokenizing of `src/builder.cpp` (strsep/strtok/atoi) is modelled
separately for the error-handling claims (`process_line_str` below).
-/

namespace BAC

/-- A parsed transaction record: the list of input addresses and the list
of output addresses, in stream order.  An empty list models an empty (or
missing) `<inputs>`/`<outputs>` field, for which `src/builder.cpp`
`process_line` skips the corresponding `process_inputs`/`process_outputs`
call. -/
structure Tx where
  inputs : List Int
  outputs : List Int
  deriving DecidableEq

/-! ## Builder v1.0 (src/builder.cpp), transaction level -/

/-- Loop body of `src/builder.cpp` `process_inputs` (lines 75-84): for the
current address `a`, skip it if it equals the first input address,
otherwise append the normalized edge `minmax(first, a)` and update the
running maximum identifier. -/
def piStepV1 (first : Int) (st : Int × List (Int × Int)) (a : Int) : Int × List (Int × Int) :=
  if a = first then st
  else ((if a ≥ st.1 then a else st.1), st.2 ++ [(min first a, max first a)])

/-- Model of `src/builder.cpp` `process_inputs` (lines 67-85): take the first input
address, update `max_id` with it, then run `piStepV1` over the remaining
input addresses.  The empty list models the case where the inputs token is
empty and the function is not called. -/
def process_inputs_v1 (inputs : List Int) (maxId : Int) (edges : List (Int × Int)) :
    Int × List (Int × Int) :=
  match inputs with
  | [] => (maxId, edges)
  | first :: rest => rest.foldl (piStepV1 first) ((if first ≥ maxId then first else maxId), edges)

/-- Model of `src/builder.cpp` `process_outputs` (lines 94-105): update `max_id`
with every output address. -/
def process_outputs_v1 (outputs : List Int) (maxId : Int) : Int :=
  outputs.foldl (fun m a => if a ≥ m then a else m) maxId

/-- Model of `src/builder.cpp` `process_line` (lines 114-128) on a parsed record:
inputs are processed first, then outputs. -/
def process_tx_v1 (st : Int × List (Int × Int)) (t : Tx) : Int × List (Int × Int) :=
  ((process_outputs_v1 t.outputs (process_inputs_v1 t.inputs st.1 st.2).1),
   (process_inputs_v1 t.inputs st.1 st.2).2)

/-- The `(max_id, edges)` state after the read loop of `src/builder.cpp`
`main` (lines 152-158); `max_id` starts at 0. -/
def builderStateV1 (txs : List Tx) : Int × List (Int × Int) :=
  txs.foldl process_tx_v1 (0, [])

def maxIdV1 (txs : List Tx) : Int := (builderStateV1 txs).1

def rawEdgesV1 (txs : List Tx) : List (Int × Int) := (builderStateV1 txs).2

/-- Node count `num_nodes = max_id + 1` (src/builder.cpp line 165). -/
def numNodesV1 (txs : List Tx) : Int := maxIdV1 txs + 1

/-- The strict-weak-order used by `std::sort` on `pair<int,int>`, as a
non-strict total order: lexicographic `≤`. -/
def pairLe (a b : Int × Int) : Prop := a.1 < b.1 ∨ (a.1 = b.1 ∧ a.2 ≤ b.2)

instance : DecidableRel pairLe := fun a b => by
  unfold pairLe; exact inferInstance

instance : IsTotal (Int × Int) pairLe := by
  constructor; intro a b; unfold pairLe; omega

instance : IsTrans (Int × Int) pairLe := by
  constructor; intro a b c hab hbc; unfold pairLe at *; omega

instance : IsAntisymm (Int × Int) pairLe := by
  constructor; intro a b hab hba
  unfold pairLe at *
  obtain ⟨a1, a2⟩ := a
  obtain ⟨b1, b2⟩ := b
  simp only [Prod.mk.injEq]
  simp only at hab hba
  omega

/-- Helper of `dedupAdjacent`: `prev` is the previous element of the
sorted list (`edges[i-1]` in src/builder.cpp line 169). -/
def dedupAdjAux : (Int × Int) → List (Int × Int) → List (Int × Int)
  | _, [] => []
  | prev, x :: xs => if x = prev then dedupAdjAux x xs else x :: dedupAdjAux x xs

/-- The duplicate-skipping write loop of `src/builder.cpp` `main`
(lines 168-176): an element is kept iff it is the first one or differs
from the immediately preceding element. -/
def dedupAdjacent : List (Int × Int) → List (Int × Int)
  | [] => []
  | a :: rest => a :: dedupAdjAux a rest

/-- The edge list after `sort(edges.begin(), edges.end())`
(src/builder.cpp line 161).  `std::sort` is modelled by insertion sort;
any sorting algorithm yields the same list because the order is total and
antisymmetric (see the determinism theorem). -/
def sortedEdgesV1 (txs : List Tx) : List (Int × Int) :=
  List.insertionSort pairLe (rawEdgesV1 txs)

/-- The edge records actually written to the file. -/
def finalEdgesV1 (txs : List Tx) : List (Int × Int) := dedupAdjacent (sortedEdgesV1 txs)

/-- Edge count `num_edges`, the count of written records (src/builder.cpp line 174). -/
def numEdgesV1 (txs : List Tx) : Int := ((finalEdgesV1 txs).length : Int)

/-! ## Graph codec

`src/builder.cpp` writes each 32-bit signed integer through
`__builtin_bswap32`, i.e. big-endian byte order on the little-endian
hosts it targets; `src/clustering.cpp` and `src/analyzer.cpp` apply the
same swap when reading.  A word is modelled as its 4 big-endian bytes of
the two's complement representation. -/

/-- Big-endian bytes of the 32-bit two's complement representation of `v`
(the wrap `% 2^32` makes the value modelling explicit). -/
def enc32 (v : Int) : List Nat :=
  [(v % 4294967296).toNat / 16777216 % 256,
   (v % 4294967296).toNat / 65536 % 256,
   (v % 4294967296).toNat / 256 % 256,
   (v % 4294967296).toNat % 256]

/-- Reinterpret an unsigned 32-bit value as a signed `int`. -/
def toSigned (u : Nat) : Int :=
  if u < 2147483648 then (u : Int) else (u : Int) - 4294967296

/-- Read one big-endian 32-bit signed integer from the byte stream
(the `fread`/`bswap32` of the readers); fails if fewer than 4 bytes
remain. -/
def parse32 : List Nat → Option (Int × List Nat)
  | b0 :: b1 :: b2 :: b3 :: rest =>
    some (toSigned (((b0 * 256 + b1) * 256 + b2) * 256 + b3), rest)
  | _ => none

/-- The edge-reading loops of both analyzers: read full 8-byte records
until end of file.  (A ragged tail of 1-7 bytes would make the C readers
reuse stale buffer contents; files written by the builders always consist
of whole records, and that corner is outside this model.) -/
def parseEdges : List Nat → List (Int × Int)
  | b0 :: b1 :: b2 :: b3 :: b4 :: b5 :: b6 :: b7 :: rest =>
    (toSigned (((b0 * 256 + b1) * 256 + b2) * 256 + b3),
     toSigned (((b4 * 256 + b5) * 256 + b6) * 256 + b7)) :: parseEdges rest
  | _ => []

def encodeEdges (es : List (Int × Int)) : List Nat :=
  es.flatMap (fun e => enc32 e.1 ++ enc32 e.2)

/-- The bytes of the graph file written by `src/builder.cpp` `main`
(lines 163-181): the edge records are written first at offset 8, then the
header `(num_nodes, num_edges)` is written at offset 0, so the final file
is header followed by records. -/
def fileOfStateV1 (maxId : Int) (raw : List (Int × Int)) : List Nat :=
  enc32 (maxId + 1) ++
  enc32 (((dedupAdjacent (List.insertionSort pairLe raw)).length : Int)) ++
  encodeEdges (dedupAdjacent (List.insertionSort pairLe raw))

def builderFileV1 (txs : List Tx) : List Nat :=
  fileOfStateV1 (maxIdV1 txs) (rawEdgesV1 txs)

/-! ## Analyzer read path (src/clustering.cpp) -/

/-- The igraph graph as constructed by `read_graph_binary`: a node count
and the edge vector contents (pairs of endpoints). -/
structure IGraph where
  n : Int
  edges : List (Int × Int)
  deriving DecidableEq

/-- The zero-initialized igraph vector of length `2 * num_edges`
(src/clustering.cpp line 43): the records read from the file fill it from
the front, entries with no corresponding record remain `(0, 0)`.  (If the
file holds more than `m` records the C code overruns the vector, which is
undefined; that case is outside the model.) -/
def padEdges (m : Int) (recs : List (Int × Int)) : List (Int × Int) :=
  recs ++ List.replicate (m.toNat - recs.length) (0, 0)

/-- Model of `src/clustering.cpp` `read_graph_binary` (lines 33-52): read the two
header words, take the node count from the header unless `forced ≠ 0`,
then read edge records until end of file.  `none` models the undefined
contents of `buf` when the file is shorter than the 8-byte header. -/
def read_graph_binary (bytes : List Nat) (forced : Int) : Option IGraph :=
  match parse32 bytes with
  | none => none
  | some (w0, r1) =>
    match parse32 r1 with
    | none => none
    | some (w1, r2) =>
      some ⟨(if forced = 0 then w0 else forced), padEdges w1 (parseEdges r2)⟩

/-! ## Connected components

The component computation itself is `igraph_connected_components`
(src/clustering.cpp line 93) resp. lemon `connectedComponents`
(src/analyzer.cpp line 66); both live in external libraries whose code is
not part of this repository.  They are modelled from the spec (section
4.4): "given N and an edge list, produce, for every node id in `[0,N)`, a
component id such that two nodes share a component id iff they are
connected by some path of edges"; the concrete id values are
implementation-internal.  The model below assigns to each node the
smallest node reachable from it, computed by a bounded closure
iteration. -/

/-- One undirected step along an edge of the list. -/
def adjStep (E : List (Nat × Nat)) (u v : Nat) : Prop := (u, v) ∈ E ∨ (v, u) ∈ E

instance (E : List (Nat × Nat)) (u v : Nat) : Decidable (adjStep E u v) := by
  unfold adjStep; exact inferInstance

/-- Connectivity by a path of edges, as required by the spec. -/
inductive Reach (E : List (Nat × Nat)) : Nat → Nat → Prop
  | refl (u : Nat) : Reach E u u
  | tail {u v w : Nat} : Reach E u v → adjStep E v w → Reach E u w

def insertNode (s : List Nat) (x : Nat) : List Nat := if x ∈ s then s else x :: s

/-- Add `b` to the set when `a` is already in it. -/
def addIfAdj (s : List Nat) (a b : Nat) : List Nat := if a ∈ s then insertNode s b else s

/-- Close the set `s` under one edge, in both directions. -/
def expandEdge (s : List Nat) (e : Nat × Nat) : List Nat :=
  addIfAdj (addIfAdj s e.1 e.2) e.2 e.1

/-- Close the set `s` under every edge once. -/
def expand (E : List (Nat × Nat)) (s : List Nat) : List Nat := E.foldl expandEdge s

def reachAux (E : List (Nat × Nat)) : Nat → List Nat → List Nat
  | 0, s => s
  | k + 1, s => reachAux E k (expand E s)

/-- The set of nodes reachable from `u`; `N` rounds of closure suffice for
a graph whose edges stay below `N`. -/
def reachList (N : Nat) (E : List (Nat × Nat)) (u : Nat) : List Nat := reachAux E N [u]

/-- Modelled from the spec: the component id of node `u` (the missing
code is `igraph_connected_components` / lemon `connectedComponents`).
Only the induced equivalence matters, so the id is taken to be the
smallest reachable node. -/
def comp (N : Nat) (E : List (Nat × Nat)) (u : Nat) : Nat :=
  (reachList N E u).foldl Nat.min u

/-- A node set closed under every edge of the list. -/
def Closed (E : List (Nat × Nat)) (s : List Nat) : Prop :=
  ∀ e ∈ E, (e.1 ∈ s → e.2 ∈ s) ∧ (e.2 ∈ s → e.1 ∈ s)

def edgeNat (e : Int × Int) : Nat × Nat := (e.1.toNat, e.2.toNat)

/-- Component id of the address `a` in a graph read by
`src/clustering.cpp` (igraph node ids are the nonnegative integers below
`n`). -/
def compOfIGraph (g : IGraph) (a : Int) : Nat :=
  comp g.n.toNat (g.edges.map edgeNat) a.toNat

/-- The rows printed by the output loop of `src/clustering.cpp` `main`
(lines 96-100): `i, comp_map[i]` for `i = 0, ..., num_nodes - 1`. -/
def outputRows (N : Nat) (E : List (Nat × Nat)) : List (Nat × Nat) :=
  (List.range N).map (fun i => (i, comp N E i))

/-! ## Builder v0.2 (src/unnamed/part_003), transaction level

This generation keeps the address-to-node-id map the spec describes.
`node_map_t` is an `unordered_map<int,int>`; it is modelled as the
association list of its insertions (the map is never iterated, so the
container's internal order is unobservable).  `edge_set_t` is a
`std::set<pair<int,int>>`; only membership is observable before
serialization, so it is modelled as a duplicate-free list in insertion
order. -/

structure BState02 where
  nodes : List (Int × Nat)
  idCount : Nat
  edges : List (Nat × Nat)
  deriving DecidableEq

/-- Model of `src/unnamed/part_003` `contains_node` (lines 69-72); `none` models
the `-1` sentinel. -/
def contains_node (nodes : List (Int × Nat)) (a : Int) : Option Nat :=
  match nodes with
  | [] => none
  | p :: rest => if p.1 = a then some p.2 else contains_node rest a

/-- The "if no node is associated with the address, then add one" step of
`process_inputs`/`process_outputs` (lines 96-102 and 124-130): returns the
updated state and the id of `a`. -/
def lookupOrInsert (st : BState02) (a : Int) : BState02 × Nat :=
  match contains_node st.nodes a with
  | some i => (st, i)
  | none => (⟨st.nodes ++ [(a, st.idCount)], st.idCount + 1, st.edges⟩, st.idCount)

/-- Edge insertion `edges.insert` on the `std::set` (line 103): membership-preserving
insert. -/
def setInsertEdge (s : List (Nat × Nat)) (e : Nat × Nat) : List (Nat × Nat) :=
  if e ∈ s then s else s ++ [e]

/-- Ordered duplicate-free insert: one `std::set<int>::insert`. -/
def insertSorted (a : Int) : List Int → List Int
  | [] => [a]
  | b :: rest =>
    if a < b then a :: b :: rest
    else if a = b then b :: rest
    else b :: insertSorted a rest

/-- The `set<int> input_addresses` of `process_inputs` (lines 84-92): the
distinct input addresses in ascending order, which is the iteration order
of the `std::set`. -/
def uniqueSortedInputs (inputs : List Int) : List Int :=
  inputs.foldl (fun s a => insertSorted a s) []

/-- Loop body of the path construction of `process_inputs` (lines
94-105): look up or insert the current address, and add the edge
`(prev_id, curr_id)` when a previous address exists. -/
def piStepV02 (p : BState02 × Option Nat) (curr : Int) : BState02 × Option Nat :=
  match lookupOrInsert p.1 curr with
  | (st1, i) =>
    match p.2 with
    | some prev => (⟨st1.nodes, st1.idCount, setInsertEdge st1.edges (prev, i)⟩, some i)
    | none => (st1, some i)

/-- Model of `src/unnamed/part_003` `process_inputs` (lines 82-106). -/
def process_inputs_v02 (st : BState02) (inputs : List Int) : BState02 :=
  ((uniqueSortedInputs inputs).foldl piStepV02 (st, none)).1

/-- Model of `src/unnamed/part_003` `process_outputs` (lines 116-132). -/
def process_outputs_v02 (st : BState02) (outputs : List Int) : BState02 :=
  outputs.foldl (fun s a => (lookupOrInsert s a).1) st

/-- Model of `src/unnamed/part_003` `process_line` (lines 143-157) on a parsed
record. -/
def process_tx_v02 (st : BState02) (t : Tx) : BState02 :=
  process_outputs_v02 (process_inputs_v02 st t.inputs) t.outputs

/-- The state after the read loop of `src/unnamed/part_003` `main`
(lines 177-185). -/
def buildV02 (txs : List Tx) : BState02 := txs.foldl process_tx_v02 ⟨[], 0, []⟩

/-- The distinct addresses occurring in the stream, in order of first
occurrence (inputs of a record before its outputs). -/
def observedAddrs (txs : List Tx) : List Int :=
  (txs.flatMap (fun t => t.inputs ++ t.outputs)).dedup

/-- Address-index invariant of the v0.2 builder: the id counter equals
the number of mapped addresses, the assigned ids are exactly
`0, 1, ..., n-1` in insertion order, and no address is mapped twice —
together: the map is a bijection from its addresses onto `[0, idCount)`. -/
def Inv02 (st : BState02) : Prop :=
  st.idCount = st.nodes.length ∧
  st.nodes.map Prod.snd = List.range st.nodes.length ∧
  (st.nodes.map Prod.fst).Nodup

/-! ## Builder v1.0, character level (src/builder.cpp parsing)

For the error-handling claims the tokenizing of `src/builder.cpp` is
modelled on lists of characters.  `strsep(&line, ":")` cuts at every
colon, keeping empty tokens; `strtok_r(s, ";")`/`strtok(s, ",")` skip
empty tokens.  A line is a `getline` result (it still carries its
trailing newline, except possibly for the last line of the file). -/

/-- Cut a character list at every occurrence of `sep`, keeping empty
pieces: the semantics of repeated `strsep`. -/
def splitOnChar (sep : Char) : List Char → List (List Char)
  | [] => [[]]
  | c :: cs =>
    if c = sep then [] :: splitOnChar sep cs
    else
      match splitOnChar sep cs with
      | t :: ts => (c :: t) :: ts
      | [] => [[c]]

/-- The token sequence produced by a `strtok_r`/`strtok` loop with the
single delimiter `sep`: the nonempty pieces. -/
def tokSplit (sep : Char) (s : List Char) : List (List Char) :=
  (splitOnChar sep s).filter (fun t => !t.isEmpty)

/-- The C locale's `isspace`. -/
def isSpaceChar (c : Char) : Bool :=
  c = ' ' || c = '\t' || c = '\n' || c = '\x0B' || c = '\x0C' || c = '\r'

def readDigits : List Char → Nat → Nat
  | [], acc => acc
  | c :: cs, acc => if c.isDigit then readDigits cs (10 * acc + (c.toNat - 48)) else acc

/-- Model of C `atoi`: skip whitespace, accept an optional sign, read the
leading digits; a string with no leading digits yields 0.  (Overflow
beyond `int` range is not modelled; the modelled inputs stay in range.) -/
def atoiChars (s : List Char) : Int :=
  match s.dropWhile isSpaceChar with
  | '-' :: rest => - (readDigits rest 0 : Int)
  | '+' :: rest => (readDigits rest 0 : Int)
  | rest => (readDigits rest 0 : Int)

/-- The address of one input/output entry: `atoi(strtok(entry, ","))`.
`none` models `strtok` returning `NULL` (entry made of commas only), in
which case the C code dereferences a null pointer — undefined, not an
orderly abort. -/
def firstFieldAddr (tok : List Char) : Option Int :=
  match tokSplit ',' tok with
  | [] => none
  | f :: _ => some (atoiChars f)

/-- Character-level loop body of `process_inputs` (src/builder.cpp lines
75-84): the arithmetic is exactly `piStepV1` applied to the `atoi` value
of the token's first comma field. -/
def piStepStr (first : Int) (st : Option (Int × List (Int × Int))) (tok : List Char) :
    Option (Int × List (Int × Int)) :=
  match st with
  | none => none
  | some s =>
    match firstFieldAddr tok with
    | none => none
    | some a => some (piStepV1 first s a)

/-- Character-level `src/builder.cpp` `process_inputs` (lines 67-85).
The first `none` models `strtok_r` finding no token (inputs string made
of semicolons only), after which the C code calls `strtok(NULL, ",")` on
unrelated state — undefined, not an orderly abort. -/
def process_inputs_str (inputs : List Char) (maxId : Int) (edges : List (Int × Int)) :
    Option (Int × List (Int × Int)) :=
  match tokSplit ';' inputs with
  | [] => none
  | tok :: rest =>
    match firstFieldAddr tok with
    | none => none
    | some first =>
      rest.foldl (piStepStr first) (some ((if first ≥ maxId then first else maxId), edges))

/-- Character-level loop body of `process_outputs` (src/builder.cpp lines
97-104). -/
def poStepStr (st : Option Int) (tok : List Char) : Option Int :=
  match st with
  | none => none
  | some m =>
    match firstFieldAddr tok with
    | none => none
    | some a => some (if a ≥ m then a else m)

/-- Character-level `src/builder.cpp` `process_outputs` (lines 94-105);
an outputs string without tokens makes the loop body run zero times. -/
def process_outputs_str (outputs : List Char) (maxId : Int) : Option Int :=
  (tokSplit ';' outputs).foldl poStepStr (some maxId)

/-- Character-level `src/builder.cpp` `process_line` (lines 114-128):
`strsep` the line at colons; the token at index 1 holds the inputs, the
token at index 2 the outputs, each processed only when nonempty. -/
def process_line_str (line : List Char) (maxId : Int) (edges : List (Int × Int)) :
    Option (Int × List (Int × Int)) :=
  match (match (splitOnChar ':' line).get? 1 with
         | some t => if t.isEmpty then some (maxId, edges) else process_inputs_str t maxId edges
         | none => some (maxId, edges)) with
  | none => none
  | some (m1, e1) =>
    match (splitOnChar ':' line).get? 2 with
    | some t =>
      if t.isEmpty then some (m1, e1)
      else (process_outputs_str t m1).map (fun m2 => (m2, e1))
    | none => some (m1, e1)

/-- The `(max_id, edges)` state after the character-level read loop of
`src/builder.cpp` `main`. -/
def builderRunStr (lines : List (List Char)) : Option (Int × List (Int × Int)) :=
  lines.foldlM (fun st l => process_line_str l st.1 st.2) ((0 : Int), ([] : List (Int × Int)))

/-- The bytes of the graph file written for a character-level run. -/
def builderFileStr (lines : List (List Char)) : Option (List Nat) :=
  (builderRunStr lines).map (fun st => fileOfStateV1 st.1 st.2)

/-- One inputs/outputs entry is well-tokenized when it has a nonempty
first comma field (its address may still be arbitrary junk for `atoi`). -/
def goodToken (t : List Char) : Bool := !(tokSplit ',' t).isEmpty

/-- A line is well-tokenized when its inputs token (if any, and nonempty)
has at least one entry and every entry of the inputs and outputs tokens
has a nonempty first comma field.  This excludes only the degenerate
null-pointer corners of the `strtok` loops, not malformed addresses. -/
def goodLine (line : List Char) : Bool :=
  (match (splitOnChar ':' line).get? 1 with
   | some t => t.isEmpty || (!(tokSplit ';' t).isEmpty && (tokSplit ';' t).all goodToken)
   | none => true) &&
  (match (splitOnChar ':' line).get? 2 with
   | some t => t.isEmpty || (tokSplit ';' t).all goodToken
   | none => true)

/-- A stream is well-tokenized when all of its lines are. -/
def WellTokened (lines : List (List Char)) : Prop := ∀ l ∈ lines, goodLine l = true

instance (lines : List (List Char)) : Decidable (WellTokened lines) := by
  unfold WellTokened; exact inferInstance

/-! ## Lemmas about the connectivity model -/

theorem adjStep_symm {E : List (Nat × Nat)} {u v : Nat} (h : adjStep E u v) : adjStep E v u :=
  h.elim Or.inr Or.inl

theorem Reach.trans {E : List (Nat × Nat)} {a b c : Nat}
    (h1 : Reach E a b) (h2 : Reach E b c) : Reach E a c := by
  induction h2 with
  | refl => exact h1
  | tail _ hs ih => exact Reach.tail ih hs

theorem Reach.symm {E : List (Nat × Nat)} {a b : Nat} (h : Reach E a b) : Reach E b a := by
  induction h with
  | refl => exact Reach.refl _
  | tail _ hs ih => exact Reach.trans (Reach.tail (Reach.refl _) (adjStep_symm hs)) ih

theorem mem_insertNode {s : List Nat} {x y : Nat} :
    y ∈ insertNode s x ↔ y = x ∨ y ∈ s := by
  unfold insertNode
  split
  · constructor
    · exact Or.inr
    · rintro (rfl | h) <;> simp_all
  · simp [List.mem_cons]

theorem insertNode_subset {s : List Nat} {x : Nat} : s ⊆ insertNode s x := by
  intro y hy; exact mem_insertNode.mpr (Or.inr hy)

theorem nodup_insertNode {s : List Nat} {x : Nat} (h : s.Nodup) : (insertNode s x).Nodup := by
  unfold insertNode
  split
  · exact h
  · exact List.Nodup.cons (by assumption) h

theorem lt_insertNode {s : List Nat} {x N : Nat} (hs : ∀ y ∈ s, y < N) (hx : x < N) :
    ∀ y ∈ insertNode s x, y < N := by
  intro y hy
  rcases mem_insertNode.mp hy with rfl | h
  · exact hx
  · exact hs y h

theorem mem_addIfAdj {s : List Nat} {a b x : Nat} (h : x ∈ addIfAdj s a b) :
    x ∈ s ∨ (x = b ∧ a ∈ s) := by
  unfold addIfAdj at h
  split at h
  · rcases mem_insertNode.mp h with rfl | hx
    · exact Or.inr ⟨rfl, by assumption⟩
    · exact Or.inl hx
  · exact Or.inl h

theorem addIfAdj_subset {s : List Nat} {a b : Nat} : s ⊆ addIfAdj s a b := by
  unfold addIfAdj
  split
  · exact insertNode_subset
  · exact fun y hy => hy

theorem mem_addIfAdj_of {s : List Nat} {a b : Nat} (ha : a ∈ s) : b ∈ addIfAdj s a b := by
  unfold addIfAdj
  split
  · exact mem_insertNode.mpr (Or.inl rfl)
  · simp_all

theorem nodup_addIfAdj {s : List Nat} {a b : Nat} (h : s.Nodup) : (addIfAdj s a b).Nodup := by
  unfold addIfAdj
  split
  · exact nodup_insertNode h
  · exact h

theorem lt_addIfAdj {s : List Nat} {a b N : Nat} (hs : ∀ y ∈ s, y < N) (hb : b < N) :
    ∀ y ∈ addIfAdj s a b, y < N := by
  unfold addIfAdj
  split
  · exact lt_insertNode hs hb
  · exact hs

theorem expandEdge_subset {s : List Nat} {e : Nat × Nat} : s ⊆ expandEdge s e :=
  fun _ hy => addIfAdj_subset (addIfAdj_subset hy)

theorem nodup_expandEdge {s : List Nat} {e : Nat × Nat} (h : s.Nodup) : (expandEdge s e).Nodup :=
  nodup_addIfAdj (nodup_addIfAdj h)

theorem lt_expandEdge {s : List Nat} {e : Nat × Nat} {N : Nat}
    (hs : ∀ y ∈ s, y < N) (he : e.1 < N ∧ e.2 < N) : ∀ y ∈ expandEdge s e, y < N :=
  lt_addIfAdj (lt_addIfAdj hs he.2) he.1

theorem reach_addIfAdj {E : List (Nat × Nat)} {u : Nat} {s : List Nat} {a b : Nat}
    (hI : ∀ y ∈ s, Reach E u y) (hadj : adjStep E a b) :
    ∀ x ∈ addIfAdj s a b, Reach E u x := by
  intro x hx
  rcases mem_addIfAdj hx with h | ⟨rfl, ha⟩
  · exact hI x h
  · exact Reach.tail (hI a ha) hadj

theorem reach_expandEdge {E : List (Nat × Nat)} {u : Nat} {s : List Nat} {e : Nat × Nat}
    (hI : ∀ y ∈ s, Reach E u y) (he : e ∈ E) :
    ∀ x ∈ expandEdge s e, Reach E u x := by
  have h1 : adjStep E e.1 e.2 := Or.inl (by simpa using he)
  exact reach_addIfAdj (reach_addIfAdj hI h1) (adjStep_symm h1)

theorem subset_foldl_expandEdge :
    ∀ (l : List (Nat × Nat)) (s : List Nat), s ⊆ l.foldl expandEdge s := by
  intro l
  induction l with
  | nil => exact fun s => fun y hy => hy
  | cons e l ih =>
    intro s y hy
    exact ih (expandEdge s e) (expandEdge_subset hy)

theorem nodup_foldl_expandEdge :
    ∀ (l : List (Nat × Nat)) (s : List Nat), s.Nodup → (l.foldl expandEdge s).Nodup := by
  intro l
  induction l with
  | nil => exact fun s h => h
  | cons e l ih => exact fun s h => ih (expandEdge s e) (nodup_expandEdge h)

theorem lt_foldl_expandEdge {N : Nat} :
    ∀ (l : List (Nat × Nat)) (s : List Nat), (∀ y ∈ s, y < N) →
      (∀ e ∈ l, e.1 < N ∧ e.2 < N) → ∀ y ∈ l.foldl expandEdge s, y < N := by
  intro l
  induction l with
  | nil => exact fun s hs _ => hs
  | cons e l ih =>
    intro s hs hl
    exact ih (expandEdge s e) (lt_expandEdge hs (hl e (List.mem_cons_self e l)))
      (fun f hf => hl f (List.mem_cons_of_mem e hf))

theorem reach_foldl_expandEdge {E : List (Nat × Nat)} {u : Nat} :
    ∀ (l : List (Nat × Nat)) (s : List Nat), (∀ y ∈ s, Reach E u y) →
      (∀ e ∈ l, e ∈ E) → ∀ x ∈ l.foldl expandEdge s, Reach E u x := by
  intro l
  induction l with
  | nil => exact fun s hI _ => hI
  | cons e l ih =>
    intro s hI hl
    exact ih (expandEdge s e) (reach_expandEdge hI (hl e (List.mem_cons_self e l)))
      (fun f hf => hl f (List.mem_cons_of_mem e hf))

theorem mem_foldl_of_fst_mem :
    ∀ (l : List (Nat × Nat)) (s : List Nat) (e : Nat × Nat),
      e ∈ l → e.1 ∈ s → e.2 ∈ l.foldl expandEdge s := by
  intro l
  induction l with
  | nil => intro s e he; simp at he
  | cons f l ih =>
    intro s e he h1
    rcases List.mem_cons.mp he with rfl | he'
    · exact subset_foldl_expandEdge l (expandEdge s e)
        (addIfAdj_subset (mem_addIfAdj_of h1))
    · exact ih (expandEdge s f) e he' (expandEdge_subset h1)

theorem mem_foldl_of_snd_mem :
    ∀ (l : List (Nat × Nat)) (s : List Nat) (e : Nat × Nat),
      e ∈ l → e.2 ∈ s → e.1 ∈ l.foldl expandEdge s := by
  intro l
  induction l with
  | nil => intro s e he; simp at he
  | cons f l ih =>
    intro s e he h2
    rcases List.mem_cons.mp he with rfl | he'
    · exact subset_foldl_expandEdge l (expandEdge s e)
        (mem_addIfAdj_of (addIfAdj_subset h2))
    · exact ih (expandEdge s f) e he' (expandEdge_subset h2)

theorem foldl_expandEdge_of_closed :
    ∀ (l : List (Nat × Nat)) (s : List Nat),
      (∀ e ∈ l, (e.1 ∈ s → e.2 ∈ s) ∧ (e.2 ∈ s → e.1 ∈ s)) →
      l.foldl expandEdge s = s := by
  intro l
  induction l with
  | nil => intro s _; rfl
  | cons e l ih =>
    intro s hl
    have he := hl e (List.mem_cons_self e l)
    have h1 : addIfAdj s e.1 e.2 = s := by
      unfold addIfAdj
      split
      · unfold insertNode
        split
        · rfl
        · exact absurd (he.1 (by assumption)) (by assumption)
      · rfl
    have h2 : expandEdge s e = s := by
      unfold expandEdge
      rw [h1]
      unfold addIfAdj
      split
      · unfold insertNode
        split
        · rfl
        · exact absurd (he.2 (by assumption)) (by assumption)
      · rfl
    simp only [List.foldl_cons, h2]
    exact ih s (fun f hf => hl f (List.mem_cons_of_mem e hf))

theorem expand_of_closed {E : List (Nat × Nat)} {s : List Nat} (h : Closed E s) :
    expand E s = s :=
  foldl_expandEdge_of_closed E s h

theorem reachAux_of_closed {E : List (Nat × Nat)} {s : List Nat} (h : Closed E s) :
    ∀ k, reachAux E k s = s := by
  intro k
  induction k with
  | zero => rfl
  | succ k ih => simp only [reachAux, expand_of_closed h, ih]

theorem exists_new_of_not_closed {E : List (Nat × Nat)} {s : List Nat} (h : ¬ Closed E s) :
    ∃ x, x ∈ expand E s ∧ x ∉ s := by
  by_cases h1 : ∃ e ∈ E, e.1 ∈ s ∧ e.2 ∉ s
  · obtain ⟨e, he, hm, hnm⟩ := h1
    exact ⟨e.2, mem_foldl_of_fst_mem E s e he hm, hnm⟩
  · by_cases h2 : ∃ e ∈ E, e.2 ∈ s ∧ e.1 ∉ s
    · obtain ⟨e, he, hm, hnm⟩ := h2
      exact ⟨e.1, mem_foldl_of_snd_mem E s e he hm, hnm⟩
    · exfalso
      apply h
      intro e he
      constructor
      · intro hm
        by_contra hc
        exact h1 ⟨e, he, hm, hc⟩
      · intro hm
        by_contra hc
        exact h2 ⟨e, he, hm, hc⟩

theorem length_lt_of_not_closed {E : List (Nat × Nat)} {s : List Nat}
    (hn : s.Nodup) (h : ¬ Closed E s) : s.length + 1 ≤ (expand E s).length := by
  obtain ⟨x, hx, hxs⟩ := exists_new_of_not_closed h
  have hsub : (x :: s) ⊆ expand E s := by
    intro y hy
    rcases List.mem_cons.mp hy with rfl | hy'
    · exact hx
    · exact subset_foldl_expandEdge E s hy'
  have := (List.subperm_of_subset (List.Nodup.cons hxs hn) hsub).length_le
  simpa using this

theorem reachAux_closed_or_length {E : List (Nat × Nat)} :
    ∀ (k : Nat) (s : List Nat), s.Nodup →
      Closed E (reachAux E k s) ∨ s.length + k ≤ (reachAux E k s).length := by
  intro k
  induction k with
  | zero => intro s _; right; simp [reachAux]
  | succ k ih =>
    intro s hn
    by_cases hc : Closed E s
    · left
      rw [show reachAux E (k + 1) s = s from reachAux_of_closed hc (k + 1)]
      exact hc
    · have hgrow := length_lt_of_not_closed hn hc
      rcases ih (expand E s) (nodup_foldl_expandEdge E s hn) with h | h
      · left
        simpa [reachAux] using h
      · right
        simp only [reachAux]
        omega

theorem nodup_reachAux {E : List (Nat × Nat)} :
    ∀ (k : Nat) (s : List Nat), s.Nodup → (reachAux E k s).Nodup := by
  intro k
  induction k with
  | zero => exact fun s h => h
  | succ k ih => exact fun s h => ih (expand E s) (nodup_foldl_expandEdge E s h)

theorem lt_reachAux {E : List (Nat × Nat)} {N : Nat} (hE : ∀ e ∈ E, e.1 < N ∧ e.2 < N) :
    ∀ (k : Nat) (s : List Nat), (∀ y ∈ s, y < N) → ∀ y ∈ reachAux E k s, y < N := by
  intro k
  induction k with
  | zero => exact fun s h => h
  | succ k ih => exact fun s h => ih (expand E s) (lt_foldl_expandEdge E s h hE)

theorem subset_reachAux {E : List (Nat × Nat)} :
    ∀ (k : Nat) (s : List Nat), s ⊆ reachAux E k s := by
  intro k
  induction k with
  | zero => exact fun s => fun y hy => hy
  | succ k ih =>
    exact fun s => fun y hy => ih (expand E s) (subset_foldl_expandEdge E s hy)

theorem length_le_of_lt_nodup {s : List Nat} {N : Nat}
    (hn : s.Nodup) (hlt : ∀ y ∈ s, y < N) : s.length ≤ N := by
  have hsub : s ⊆ List.range N := fun y hy => List.mem_range.mpr (hlt y hy)
  have := (List.subperm_of_subset hn hsub).length_le
  simpa using this

theorem reachList_closed {E : List (Nat × Nat)} {N u : Nat}
    (hE : ∀ e ∈ E, e.1 < N ∧ e.2 < N) (hu : u < N) : Closed E (reachList N E u) := by
  rcases @reachAux_closed_or_length E N [u] (List.nodup_singleton u) with h | h
  · exact h
  · exfalso
    have hlt : ∀ y ∈ reachAux E N [u], y < N :=
      lt_reachAux hE N [u] (by intro y hy; simp at hy; omega)
    have := length_le_of_lt_nodup (nodup_reachAux N [u] (List.nodup_singleton u)) hlt
    simp at h
    omega

theorem mem_reachList_self {N : Nat} {E : List (Nat × Nat)} {u : Nat} :
    u ∈ reachList N E u :=
  subset_reachAux N [u] (by simp)

theorem reach_of_mem_reachList {N : Nat} {E : List (Nat × Nat)} {u x : Nat}
    (h : x ∈ reachList N E u) : Reach E u x := by
  have main : ∀ (k : Nat) (s : List Nat), (∀ y ∈ s, Reach E u y) →
      ∀ y ∈ reachAux E k s, Reach E u y := by
    intro k
    induction k with
    | zero => exact fun s hI => hI
    | succ k ih =>
      exact fun s hI => ih (expand E s) (reach_foldl_expandEdge E s hI (fun e he => he))
  exact main N [u] (by intro y hy; simp at hy; subst hy; exact Reach.refl _) x h

theorem reach_lt {E : List (Nat × Nat)} {N u v : Nat}
    (hE : ∀ e ∈ E, e.1 < N ∧ e.2 < N) (hu : u < N) (h : Reach E u v) : v < N := by
  induction h with
  | refl => exact hu
  | tail _ hs ih =>
    rcases hs with hmem | hmem
    · exact (hE _ hmem).2
    · exact (hE _ hmem).1

theorem mem_reachList_of_reach {E : List (Nat × Nat)} {N u v : Nat}
    (hE : ∀ e ∈ E, e.1 < N ∧ e.2 < N) (hu : u < N) (h : Reach E u v) :
    v ∈ reachList N E u := by
  induction h with
  | refl => exact mem_reachList_self
  | tail _ hs ih =>
    have hc := reachList_closed hE hu
    rcases hs with hmem | hmem
    · exact (hc _ hmem).1 ih
    · exact (hc _ hmem).2 ih

theorem mem_reachList_iff {E : List (Nat × Nat)} {N u v : Nat}
    (hE : ∀ e ∈ E, e.1 < N ∧ e.2 < N) (hu : u < N) :
    v ∈ reachList N E u ↔ Reach E u v :=
  ⟨reach_of_mem_reachList, mem_reachList_of_reach hE hu⟩

theorem foldl_min_le_init : ∀ (l : List Nat) (a : Nat), l.foldl Nat.min a ≤ a := by
  intro l
  induction l with
  | nil => intro a; exact Nat.le_refl a
  | cons x l ih =>
    intro a
    exact Nat.le_trans (ih (Nat.min a x)) (Nat.min_le_left a x)

theorem foldl_min_le_mem :
    ∀ (l : List Nat) (a x : Nat), x ∈ l → l.foldl Nat.min a ≤ x := by
  intro l
  induction l with
  | nil => intro a x hx; simp at hx
  | cons y l ih =>
    intro a x hx
    rcases List.mem_cons.mp hx with rfl | hx'
    · exact Nat.le_trans (foldl_min_le_init l (Nat.min a x)) (Nat.min_le_right a x)
    · exact ih (Nat.min a y) x hx'

theorem foldl_min_mem :
    ∀ (l : List Nat) (a : Nat), l.foldl Nat.min a = a ∨ l.foldl Nat.min a ∈ l := by
  intro l
  induction l with
  | nil => intro a; exact Or.inl rfl
  | cons x l ih =>
    intro a
    rcases ih (Nat.min a x) with h | h
    · simp only [List.foldl_cons, h]
      rcases Nat.le_total a x with hle | hle
      · exact Or.inl (Nat.min_eq_left hle)
      · right
        have hmx : Nat.min a x = x := Nat.min_eq_right hle
        rw [hmx]
        exact List.mem_cons_self x l
    · exact Or.inr (List.mem_cons_of_mem x h)

theorem comp_mem_reachList {N : Nat} {E : List (Nat × Nat)} {u : Nat} :
    comp N E u ∈ reachList N E u := by
  unfold comp
  rcases foldl_min_mem (reachList N E u) u with h | h
  · rw [h]; exact mem_reachList_self
  · exact h

theorem comp_le_mem {N : Nat} {E : List (Nat × Nat)} {u x : Nat}
    (hx : x ∈ reachList N E u) : comp N E u ≤ x :=
  foldl_min_le_mem (reachList N E u) u x hx

theorem comp_eq_of_reach {E : List (Nat × Nat)} {N u v : Nat}
    (hE : ∀ e ∈ E, e.1 < N ∧ e.2 < N) (hu : u < N) (hv : v < N) (h : Reach E u v) :
    comp N E u = comp N E v := by
  have huv : ∀ x, x ∈ reachList N E u ↔ x ∈ reachList N E v := by
    intro x
    rw [mem_reachList_iff hE hu, mem_reachList_iff hE hv]
    exact ⟨fun hx => Reach.trans h.symm hx, fun hx => Reach.trans h hx⟩
  have h1 : comp N E u ≤ comp N E v :=
    comp_le_mem ((huv _).mpr comp_mem_reachList)
  have h2 : comp N E v ≤ comp N E u :=
    comp_le_mem ((huv _).mp comp_mem_reachList)
  omega

theorem reach_of_comp_eq {E : List (Nat × Nat)} {N u v : Nat}
    (h : comp N E u = comp N E v) : Reach E u v := by
  have h1 : Reach E u (comp N E u) := reach_of_mem_reachList comp_mem_reachList
  have h2 : Reach E v (comp N E v) := reach_of_mem_reachList comp_mem_reachList
  rw [h] at h1
  exact Reach.trans h1 h2.symm

/-! ## Lemmas about builder v1.0 -/

theorem edges_mono_piStep {first : Int} {st : Int × List (Int × Int)} {a : Int}
    {e : Int × Int} (h : e ∈ st.2) : e ∈ (piStepV1 first st a).2 := by
  unfold piStepV1
  split
  · exact h
  · exact List.mem_append_left _ h

theorem edges_mono_piFold {first : Int} :
    ∀ (l : List Int) (st : Int × List (Int × Int)) (e : Int × Int),
      e ∈ st.2 → e ∈ (l.foldl (piStepV1 first) st).2 := by
  intro l
  induction l with
  | nil => exact fun st e h => h
  | cons a l ih => exact fun st e h => ih (piStepV1 first st a) e (edges_mono_piStep h)

theorem max_mono_piStep {first : Int} {st : Int × List (Int × Int)} {a : Int} :
    st.1 ≤ (piStepV1 first st a).1 := by
  unfold piStepV1
  split
  · exact le_refl _
  · simp only
    split <;> omega

theorem max_mono_piFold {first : Int} :
    ∀ (l : List Int) (st : Int × List (Int × Int)), st.1 ≤ (l.foldl (piStepV1 first) st).1 := by
  intro l
  induction l with
  | nil => exact fun st => le_refl _
  | cons a l ih =>
    exact fun st => le_trans max_mono_piStep (ih (piStepV1 first st a))

theorem shape_piFold {first : Int} :
    ∀ (l : List Int) (st : Int × List (Int × Int)) (e : Int × Int),
      e ∈ (l.foldl (piStepV1 first) st).2 →
      e ∈ st.2 ∨ ∃ a ∈ l, a ≠ first ∧ e = (min first a, max first a) := by
  intro l
  induction l with
  | nil => exact fun st e h => Or.inl h
  | cons a l ih =>
    intro st e h
    rcases ih (piStepV1 first st a) e h with h' | ⟨b, hb, hbf, rfl⟩
    · unfold piStepV1 at h'
      split at h'
      · exact Or.inl h'
      · rcases List.mem_append.mp h' with h'' | h''
        · exact Or.inl h''
        · simp at h''
          exact Or.inr ⟨a, List.mem_cons_self a l, by assumption, h''⟩
    · exact Or.inr ⟨b, List.mem_cons_of_mem a hb, hbf, rfl⟩

theorem mem_piFold_of_mem {first : Int} :
    ∀ (l : List Int) (st : Int × List (Int × Int)) (a : Int), a ∈ l → a ≠ first →
      (min first a, max first a) ∈ (l.foldl (piStepV1 first) st).2 := by
  intro l
  induction l with
  | nil => intro st a ha; simp at ha
  | cons b l ih =>
    intro st a ha hne
    rcases List.mem_cons.mp ha with rfl | ha'
    · refine edges_mono_piFold l (piStepV1 first st a) _ ?_
      unfold piStepV1
      rw [if_neg hne]
      exact List.mem_append_right _ (by simp)
    · exact ih (piStepV1 first st b) a ha' hne

theorem le_max_piFold {first : Int} :
    ∀ (l : List Int) (st : Int × List (Int × Int)) (a : Int), a ∈ l → a ≠ first →
      a ≤ (l.foldl (piStepV1 first) st).1 := by
  intro l
  induction l with
  | nil => intro st a ha; simp at ha
  | cons b l ih =>
    intro st a ha hne
    rcases List.mem_cons.mp ha with rfl | ha'
    · refine le_trans ?_ (max_mono_piFold l (piStepV1 first st a))
      unfold piStepV1
      rw [if_neg hne]
      simp only
      split <;> omega
    · exact ih (piStepV1 first st b) a ha' hne

theorem max_le_piFold {first B : Int} :
    ∀ (l : List Int) (st : Int × List (Int × Int)), st.1 ≤ B → (∀ a ∈ l, a ≤ B) →
      (l.foldl (piStepV1 first) st).1 ≤ B := by
  intro l
  induction l with
  | nil => exact fun st h _ => h
  | cons a l ih =>
    intro st h hl
    refine ih (piStepV1 first st a) ?_ (fun b hb => hl b (List.mem_cons_of_mem a hb))
    unfold piStepV1
    have := hl a (List.mem_cons_self a l)
    split
    · exact h
    · simp only
      split <;> omega

theorem process_inputs_v1_edges_mono {inputs : List Int} {m : Int} {edges : List (Int × Int)}
    {e : Int × Int} (h : e ∈ edges) : e ∈ (process_inputs_v1 inputs m edges).2 := by
  unfold process_inputs_v1
  match inputs with
  | [] => exact h
  | first :: rest => exact edges_mono_piFold rest _ e h

theorem process_inputs_v1_max_mono {inputs : List Int} {m : Int} {edges : List (Int × Int)} :
    m ≤ (process_inputs_v1 inputs m edges).1 := by
  unfold process_inputs_v1
  match inputs with
  | [] => exact le_refl m
  | first :: rest =>
    refine le_trans ?_ (max_mono_piFold rest _)
    simp only
    split <;> omega

theorem process_inputs_v1_le_max {inputs : List Int} {m : Int} {edges : List (Int × Int)}
    {a : Int} (h : a ∈ inputs) : a ≤ (process_inputs_v1 inputs m edges).1 := by
  unfold process_inputs_v1
  match inputs with
  | [] => simp at h
  | first :: rest =>
    rcases List.mem_cons.mp h with rfl | h'
    · refine le_trans ?_ (max_mono_piFold rest _)
      simp only
      split <;> omega
    · by_cases hfa : a = first
      · subst hfa
        refine le_trans ?_ (max_mono_piFold rest _)
        simp only
        split <;> omega
      · exact le_max_piFold rest _ a h' hfa

theorem process_inputs_v1_max_le {inputs : List Int} {m B : Int} {edges : List (Int × Int)}
    (hm : m ≤ B) (h : ∀ a ∈ inputs, a ≤ B) : (process_inputs_v1 inputs m edges).1 ≤ B := by
  unfold process_inputs_v1
  match inputs with
  | [] => exact hm
  | first :: rest =>
    refine max_le_piFold rest _ ?_ (fun a ha => h a (List.mem_cons_of_mem first ha))
    have := h first (List.mem_cons_self first rest)
    simp only
    split <;> omega

theorem process_inputs_v1_shape {inputs : List Int} {m : Int} {edges : List (Int × Int)}
    {e : Int × Int} (h : e ∈ (process_inputs_v1 inputs m edges).2) :
    e ∈ edges ∨ ∃ f a, f ∈ inputs ∧ a ∈ inputs ∧ a ≠ f ∧ e = (min f a, max f a) := by
  unfold process_inputs_v1 at h
  match inputs, h with
  | [], h => exact Or.inl h
  | first :: rest, h =>
    rcases shape_piFold rest _ e h with h' | ⟨a, ha, haf, rfl⟩
    · exact Or.inl h'
    · exact Or.inr ⟨first, a, List.mem_cons_self first rest,
        List.mem_cons_of_mem first ha, haf, rfl⟩

theorem process_outputs_v1_mono :
    ∀ (outputs : List Int) (m : Int), m ≤ process_outputs_v1 outputs m := by
  intro outputs
  induction outputs with
  | nil => exact fun m => le_refl m
  | cons a l ih =>
    intro m
    unfold process_outputs_v1 at ih ⊢
    simp only [List.foldl_cons]
    refine le_trans ?_ (ih (if a ≥ m then a else m))
    split <;> omega

theorem process_outputs_v1_le :
    ∀ (outputs : List Int) (m a : Int), a ∈ outputs → a ≤ process_outputs_v1 outputs m := by
  intro outputs
  induction outputs with
  | nil => intro m a ha; simp at ha
  | cons b l ih =>
    intro m a ha
    unfold process_outputs_v1 at ih ⊢
    simp only [List.foldl_cons]
    rcases List.mem_cons.mp ha with rfl | ha'
    · refine le_trans ?_ (process_outputs_v1_mono l _)
      split <;> omega
    · exact ih _ a ha'

theorem process_outputs_v1_max_le {B : Int} :
    ∀ (outputs : List Int) (m : Int), m ≤ B → (∀ a ∈ outputs, a ≤ B) →
      process_outputs_v1 outputs m ≤ B := by
  intro outputs
  induction outputs with
  | nil => exact fun m hm _ => hm
  | cons a l ih =>
    intro m hm hl
    unfold process_outputs_v1 at ih ⊢
    simp only [List.foldl_cons]
    refine ih _ ?_ (fun b hb => hl b (List.mem_cons_of_mem a hb))
    have := hl a (List.mem_cons_self a l)
    split <;> omega

theorem process_tx_v1_edges_mono {st : Int × List (Int × Int)} {t : Tx} {e : Int × Int}
    (h : e ∈ st.2) : e ∈ (process_tx_v1 st t).2 :=
  process_inputs_v1_edges_mono h

theorem process_tx_v1_max_mono {st : Int × List (Int × Int)} {t : Tx} :
    st.1 ≤ (process_tx_v1 st t).1 :=
  le_trans process_inputs_v1_max_mono (process_outputs_v1_mono t.outputs _)

theorem builder_edges_mono :
    ∀ (txs : List Tx) (st : Int × List (Int × Int)) (e : Int × Int),
      e ∈ st.2 → e ∈ (txs.foldl process_tx_v1 st).2 := by
  intro txs
  induction txs with
  | nil => exact fun st e h => h
  | cons t txs ih => exact fun st e h => ih (process_tx_v1 st t) e (process_tx_v1_edges_mono h)

theorem builder_max_mono :
    ∀ (txs : List Tx) (st : Int × List (Int × Int)), st.1 ≤ (txs.foldl process_tx_v1 st).1 := by
  intro txs
  induction txs with
  | nil => exact fun st => le_refl _
  | cons t txs ih =>
    exact fun st => le_trans process_tx_v1_max_mono (ih (process_tx_v1 st t))

theorem builder_shape :
    ∀ (txs : List Tx) (st : Int × List (Int × Int)) (e : Int × Int),
      e ∈ (txs.foldl process_tx_v1 st).2 → e ∈ st.2 ∨
      ∃ t ∈ txs, ∃ f a, f ∈ t.inputs ∧ a ∈ t.inputs ∧ a ≠ f ∧ e = (min f a, max f a) := by
  intro txs
  induction txs with
  | nil => exact fun st e h => Or.inl h
  | cons t txs ih =>
    intro st e h
    rcases ih (process_tx_v1 st t) e h with h' | ⟨u, hu, rest⟩
    · rcases process_inputs_v1_shape h' with h'' | ⟨f, a, hf, ha, haf, rfl⟩
      · exact Or.inl h''
      · exact Or.inr ⟨t, List.mem_cons_self t txs, f, a, hf, ha, haf, rfl⟩
    · exact Or.inr ⟨u, List.mem_cons_of_mem t hu, rest⟩

theorem builder_mem_edge {f a : Int} {rest : List Int} :
    ∀ (txs : List Tx) (st : Int × List (Int × Int)) (t : Tx), t ∈ txs →
      t.inputs = f :: rest → a ∈ rest → a ≠ f →
      (min f a, max f a) ∈ (txs.foldl process_tx_v1 st).2 := by
  intro txs
  induction txs with
  | nil => intro st t ht; simp at ht
  | cons u txs ih =>
    intro st t ht heq ha hne
    rcases List.mem_cons.mp ht with rfl | ht'
    · refine builder_edges_mono txs (process_tx_v1 st t) _ ?_
      show (min f a, max f a) ∈ (process_inputs_v1 t.inputs st.1 st.2).2
      rw [heq]
      unfold process_inputs_v1
      exact mem_piFold_of_mem rest _ a ha hne
    · exact ih (process_tx_v1 st u) t ht' heq ha hne

theorem builder_le_max :
    ∀ (txs : List Tx) (st : Int × List (Int × Int)) (t : Tx) (a : Int), t ∈ txs →
      a ∈ t.inputs ++ t.outputs → a ≤ (txs.foldl process_tx_v1 st).1 := by
  intro txs
  induction txs with
  | nil => intro st t a ht; simp at ht
  | cons u txs ih =>
    intro st t a ht ha
    rcases List.mem_cons.mp ht with rfl | ht'
    · refine le_trans ?_ (builder_max_mono txs (process_tx_v1 st t))
      rcases List.mem_append.mp ha with hin | hout
      · exact le_trans (process_inputs_v1_le_max hin) (process_outputs_v1_mono t.outputs _)
      · exact process_outputs_v1_le t.outputs _ a hout
    · exact ih (process_tx_v1 st u) t a ht' ha

theorem builder_max_le {B : Int} :
    ∀ (txs : List Tx) (st : Int × List (Int × Int)), st.1 ≤ B →
      (∀ t ∈ txs, ∀ a ∈ t.inputs ++ t.outputs, a ≤ B) →
      (txs.foldl process_tx_v1 st).1 ≤ B := by
  intro txs
  induction txs with
  | nil => exact fun st h _ => h
  | cons t txs ih =>
    intro st h hl
    refine ih (process_tx_v1 st t) ?_ (fun u hu => hl u (List.mem_cons_of_mem t hu))
    have ht := hl t (List.mem_cons_self t txs)
    refine process_outputs_v1_max_le t.outputs _ ?_
      (fun a ha => ht a (List.mem_append_right _ ha))
    exact process_inputs_v1_max_le h (fun a ha => ht a (List.mem_append_left _ ha))

theorem maxIdV1_nonneg (txs : List Tx) : 0 ≤ maxIdV1 txs :=
  builder_max_mono txs (0, [])

theorem le_maxIdV1 {txs : List Tx} {t : Tx} {a : Int} (ht : t ∈ txs)
    (ha : a ∈ t.inputs ++ t.outputs) : a ≤ maxIdV1 txs :=
  builder_le_max txs (0, []) t a ht ha

theorem maxIdV1_le {txs : List Tx} {B : Int} (hB : 0 ≤ B)
    (h : ∀ t ∈ txs, ∀ a ∈ t.inputs ++ t.outputs, a ≤ B) : maxIdV1 txs ≤ B :=
  builder_max_le txs (0, []) hB h

theorem rawEdgesV1_shape {txs : List Tx} {e : Int × Int} (h : e ∈ rawEdgesV1 txs) :
    ∃ t ∈ txs, ∃ f a, f ∈ t.inputs ∧ a ∈ t.inputs ∧ a ≠ f ∧ e = (min f a, max f a) := by
  rcases builder_shape txs (0, []) e h with h' | h'
  · simp at h'
  · exact h'

theorem mem_rawEdgesV1 {txs : List Tx} {t : Tx} {f a : Int} {rest : List Int}
    (ht : t ∈ txs) (heq : t.inputs = f :: rest) (ha : a ∈ rest) (hne : a ≠ f) :
    (min f a, max f a) ∈ rawEdgesV1 txs :=
  builder_mem_edge txs (0, []) t ht heq ha hne

/-! ## Lemmas about sorting and duplicate skipping -/

theorem dedupAdjAux_sublist : ∀ (l : List (Int × Int)) (p : Int × Int),
    List.Sublist (dedupAdjAux p l) l := by
  intro l
  induction l with
  | nil => intro p; exact List.Sublist.refl []
  | cons x xs ih =>
    intro p
    unfold dedupAdjAux
    split
    · exact List.Sublist.cons x (ih x)
    · exact List.Sublist.cons₂ x (ih x)

theorem dedupAdjacent_sublist (l : List (Int × Int)) : List.Sublist (dedupAdjacent l) l := by
  unfold dedupAdjacent
  match l with
  | [] => exact List.Sublist.refl []
  | a :: rest => exact List.Sublist.cons₂ a (dedupAdjAux_sublist rest a)

theorem mem_dedupAdjAux : ∀ (l : List (Int × Int)) (p x : Int × Int),
    x ∈ l → x ∈ dedupAdjAux p l ∨ x = p := by
  intro l
  induction l with
  | nil => intro p x hx; simp at hx
  | cons y ys ih =>
    intro p x hx
    unfold dedupAdjAux
    rcases List.mem_cons.mp hx with rfl | hx'
    · split
      · rename_i hcond
        exact Or.inr hcond
      · exact Or.inl (List.mem_cons_self x _)
    · split
      · rename_i hcond
        rcases ih y x hx' with h | h
        · exact Or.inl h
        · exact Or.inr (h.trans hcond)
      · rcases ih y x hx' with h | h
        · exact Or.inl (List.mem_cons_of_mem y h)
        · subst h
          exact Or.inl (List.mem_cons_self x _)

theorem mem_dedupAdjacent_iff {l : List (Int × Int)} {x : Int × Int} :
    x ∈ dedupAdjacent l ↔ x ∈ l := by
  constructor
  · exact fun h => (dedupAdjacent_sublist l).subset h
  · intro h
    unfold dedupAdjacent
    match l, h with
    | a :: rest, h =>
      rcases List.mem_cons.mp h with rfl | h'
      · exact List.mem_cons_self x _
      · rcases mem_dedupAdjAux rest a x h' with h'' | rfl
        · exact List.mem_cons_of_mem a h''
        · exact List.mem_cons_self x _

theorem chain_ne_dedupAdjAux : ∀ (l : List (Int × Int)) (p : Int × Int),
    List.Chain' (· ≠ ·) (p :: dedupAdjAux p l) := by
  intro l
  induction l with
  | nil => intro p; simp [dedupAdjAux]
  | cons x xs ih =>
    intro p
    unfold dedupAdjAux
    split
    · have h := ih x
      have hxp : x = p := by assumption
      rw [← hxp]
      exact h
    · exact List.chain'_cons.mpr ⟨by simp_all [ne_comm], ih x⟩

theorem chain_ne_dedupAdjacent (l : List (Int × Int)) :
    List.Chain' (· ≠ ·) (dedupAdjacent l) := by
  unfold dedupAdjacent
  match l with
  | [] => simp
  | a :: rest => exact chain_ne_dedupAdjAux rest a

theorem sorted_dedupAdjacent {l : List (Int × Int)} (h : List.Sorted pairLe l) :
    List.Sorted pairLe (dedupAdjacent l) :=
  List.Pairwise.sublist (dedupAdjacent_sublist l) h

theorem nodup_of_sorted_chain : ∀ (l : List (Int × Int)),
    List.Sorted pairLe l → List.Chain' (· ≠ ·) l → l.Nodup := by
  intro l
  induction l with
  | nil => intro _ _; exact List.nodup_nil
  | cons a rest ih =>
    intro hs hc
    refine List.Nodup.cons ?_ (ih hs.of_cons (List.Chain'.tail hc))
    intro ha
    match rest, ha with
    | b :: t, ha =>
      have hab : a ≠ b := (List.chain'_cons.mp hc).1
      have haleb : pairLe a b := (List.sorted_cons.mp hs).1 b (List.mem_cons_self b t)
      rcases List.mem_cons.mp ha with rfl | ha'
      · exact hab rfl
      · have hblea : pairLe b a :=
          (List.sorted_cons.mp hs.of_cons).1 a ha'
        exact hab (IsAntisymm.antisymm a b haleb hblea)

theorem sorted_sortedEdgesV1 (txs : List Tx) : List.Sorted pairLe (sortedEdgesV1 txs) :=
  List.sorted_insertionSort pairLe (rawEdgesV1 txs)

theorem sorted_finalEdgesV1 (txs : List Tx) : List.Sorted pairLe (finalEdgesV1 txs) :=
  sorted_dedupAdjacent (sorted_sortedEdgesV1 txs)

theorem nodup_finalEdgesV1 (txs : List Tx) : (finalEdgesV1 txs).Nodup :=
  nodup_of_sorted_chain _ (sorted_finalEdgesV1 txs) (chain_ne_dedupAdjacent _)

theorem mem_finalEdgesV1_iff {txs : List Tx} {e : Int × Int} :
    e ∈ finalEdgesV1 txs ↔ e ∈ rawEdgesV1 txs := by
  unfold finalEdgesV1
  rw [mem_dedupAdjacent_iff]
  exact (List.perm_insertionSort pairLe (rawEdgesV1 txs)).mem_iff

theorem min_lt_max_of_ne {f a : Int} (h : a ≠ f) : min f a < max f a := by
  rcases le_or_lt f a with hle | hlt
  · rw [min_eq_left hle, max_eq_right hle]
    omega
  · rw [min_eq_right (le_of_lt hlt), max_eq_left (le_of_lt hlt)]
    omega

theorem finalEdgesV1_fst_lt_snd {txs : List Tx} {e : Int × Int}
    (h : e ∈ finalEdgesV1 txs) : e.1 < e.2 := by
  obtain ⟨t, ht, f, a, hf, ha, hne, rfl⟩ := rawEdgesV1_shape (mem_finalEdgesV1_iff.mp h)
  exact min_lt_max_of_ne hne

/-! ## Lemmas about the codec -/

theorem dec_enc (v : Int) (h1 : -2147483648 ≤ v) (h2 : v < 2147483648) :
    toSigned ((((v % 4294967296).toNat / 16777216 % 256 * 256 +
      (v % 4294967296).toNat / 65536 % 256) * 256 +
      (v % 4294967296).toNat / 256 % 256) * 256 +
      (v % 4294967296).toNat % 256) = v := by
  have ht : (((v % 4294967296).toNat / 16777216 % 256 * 256 +
      (v % 4294967296).toNat / 65536 % 256) * 256 +
      (v % 4294967296).toNat / 256 % 256) * 256 +
      (v % 4294967296).toNat % 256 = (v % 4294967296).toNat := by omega
  rw [ht]
  unfold toSigned
  split <;> omega

theorem parse32_enc32 (v : Int) (h1 : -2147483648 ≤ v) (h2 : v < 2147483648)
    (r : List Nat) : parse32 (enc32 v ++ r) = some (v, r) := by
  simp only [enc32, List.cons_append, List.nil_append, parse32]
  rw [dec_enc v h1 h2]

theorem parseEdges_cons (u v : Int) (h1 : -2147483648 ≤ u) (h2 : u < 2147483648)
    (h3 : -2147483648 ≤ v) (h4 : v < 2147483648) (r : List Nat) :
    parseEdges (enc32 u ++ (enc32 v ++ r)) = (u, v) :: parseEdges r := by
  simp only [enc32, List.cons_append, List.nil_append, List.append_eq, parseEdges]
  rw [dec_enc u h1 h2, dec_enc v h3 h4]

theorem parseEdges_encode :
    ∀ (es : List (Int × Int)),
      (∀ e ∈ es, -2147483648 ≤ e.1 ∧ e.1 < 2147483648 ∧
        -2147483648 ≤ e.2 ∧ e.2 < 2147483648) →
      parseEdges (encodeEdges es) = es := by
  intro es
  induction es with
  | nil => intro _; rfl
  | cons e es ih =>
    intro h
    have he := h e (List.mem_cons_self e es)
    have hes := fun f hf => h f (List.mem_cons_of_mem e hf)
    have ih' := ih hes
    simp only [encodeEdges, List.flatMap_cons, List.append_assoc] at ih' ⊢
    rw [parseEdges_cons e.1 e.2 he.1 he.2.1 he.2.2.1 he.2.2.2, ih']

theorem read_builderFileV1 (txs : List Tx)
    (hpos : ∀ t ∈ txs, ∀ a ∈ t.inputs ++ t.outputs, 0 ≤ a ∧ a ≤ 2147483646)
    (hM : numEdgesV1 txs < 2147483648) :
    read_graph_binary (builderFileV1 txs) 0 = some ⟨numNodesV1 txs, finalEdgesV1 txs⟩ := by
  have hmax0 := maxIdV1_nonneg txs
  have hmaxB : maxIdV1 txs ≤ 2147483646 :=
    maxIdV1_le (by omega) (fun t ht a ha => (hpos t ht a ha).2)
  have hedge : ∀ e ∈ finalEdgesV1 txs,
      -2147483648 ≤ e.1 ∧ e.1 < 2147483648 ∧ -2147483648 ≤ e.2 ∧ e.2 < 2147483648 := by
    intro e he
    obtain ⟨t, ht, f, a, hf, ha, hne, rfl⟩ := rawEdgesV1_shape (mem_finalEdgesV1_iff.mp he)
    have hfb := hpos t ht f (List.mem_append_left _ hf)
    have hab := hpos t ht a (List.mem_append_left _ ha)
    have k1 : (0:Int) ≤ min f a := le_min hfb.1 hab.1
    have k2 : min f a ≤ f := min_le_left f a
    have k3 : max f a ≤ 2147483646 := max_le hfb.2 hab.2
    have k4 : f ≤ max f a := le_max_left f a
    show -2147483648 ≤ min f a ∧ min f a < 2147483648 ∧
      -2147483648 ≤ max f a ∧ max f a < 2147483648
    omega
  have hN1 : -2147483648 ≤ numNodesV1 txs := by unfold numNodesV1; omega
  have hN2 : numNodesV1 txs < 2147483648 := by unfold numNodesV1; omega
  have hM1 : -2147483648 ≤ numEdgesV1 txs := by unfold numEdgesV1; omega
  have hfile : builderFileV1 txs =
      enc32 (numNodesV1 txs) ++ (enc32 (numEdgesV1 txs) ++ encodeEdges (finalEdgesV1 txs)) := by
    unfold builderFileV1 fileOfStateV1
    rw [List.append_assoc]
    rfl
  have hpad : padEdges (numEdgesV1 txs) (finalEdgesV1 txs) = finalEdgesV1 txs := by
    unfold padEdges numEdgesV1
    simp
  rw [hfile]
  simp only [read_graph_binary, parse32_enc32 _ hN1 hN2, parse32_enc32 _ hM1 hM,
    parseEdges_encode _ hedge, hpad, if_true]

/-! ## Lemmas about the v0.2 builder's address index -/

theorem contains_node_none :
    ∀ (nodes : List (Int × Nat)) (a : Int),
      contains_node nodes a = none ↔ ∀ p ∈ nodes, p.1 ≠ a := by
  intro nodes a
  induction nodes with
  | nil => simp [contains_node]
  | cons p rest ih =>
    unfold contains_node
    split
    · rename_i hp
      constructor
      · intro h; exact absurd h (by simp)
      · intro h
        exact absurd hp (h p (List.mem_cons_self p rest))
    · rename_i hp
      rw [ih]
      constructor
      · intro h q hq
        rcases List.mem_cons.mp hq with rfl | hq'
        · exact hp
        · exact h q hq'
      · intro h q hq
        exact h q (List.mem_cons_of_mem p hq)

theorem lookupOrInsert_inv {st : BState02} {a : Int} (h : Inv02 st) :
    Inv02 (lookupOrInsert st a).1 := by
  unfold lookupOrInsert
  split
  · exact h
  · rename_i hnone
    obtain ⟨h1, h2, h3⟩ := h
    refine ⟨?_, ?_, ?_⟩
    · simp [h1]
    · simp only [List.map_append, List.length_append, List.map_cons, List.map_nil,
        List.length_cons, List.length_nil]
      rw [h2, h1]
      simp [List.range_succ]
    · simp only [List.map_append, List.map_cons, List.map_nil]
      rw [List.nodup_append]
      refine ⟨h3, List.nodup_singleton a, ?_⟩
      intro x hx hxa
      simp at hxa
      subst hxa
      obtain ⟨p, hp, rfl⟩ := List.mem_map.mp hx
      exact ((contains_node_none st.nodes p.1).mp hnone p hp) rfl

theorem lookupOrInsert_sublist {st : BState02} {a : Int} :
    List.Sublist st.nodes (lookupOrInsert st a).1.nodes := by
  unfold lookupOrInsert
  split
  · exact List.Sublist.refl _
  · exact List.sublist_append_left _ _

theorem piStepV02_inv {p : BState02 × Option Nat} {c : Int} (h : Inv02 p.1) :
    Inv02 (piStepV02 p c).1 := by
  unfold piStepV02
  have h1 : Inv02 (lookupOrInsert p.1 c).1 := lookupOrInsert_inv h
  rcases heq : lookupOrInsert p.1 c with ⟨st1, i⟩
  rw [heq] at h1
  rcases hp : p.2 with _ | prev
  · simp only
    exact h1
  · simp only
    exact h1

theorem piStepV02_sublist {p : BState02 × Option Nat} {c : Int} :
    List.Sublist p.1.nodes (piStepV02 p c).1.nodes := by
  unfold piStepV02
  have h1 : List.Sublist p.1.nodes (lookupOrInsert p.1 c).1.nodes := lookupOrInsert_sublist
  rcases heq : lookupOrInsert p.1 c with ⟨st1, i⟩
  rw [heq] at h1
  rcases hp : p.2 with _ | prev
  · simp only
    exact h1
  · simp only
    exact h1

theorem piFold02_inv :
    ∀ (l : List Int) (p : BState02 × Option Nat), Inv02 p.1 →
      Inv02 (l.foldl piStepV02 p).1 := by
  intro l
  induction l with
  | nil => exact fun p h => h
  | cons c l ih => exact fun p h => ih (piStepV02 p c) (piStepV02_inv h)

theorem piFold02_sublist :
    ∀ (l : List Int) (p : BState02 × Option Nat),
      List.Sublist p.1.nodes ((l.foldl piStepV02 p).1.nodes) := by
  intro l
  induction l with
  | nil => exact fun p => List.Sublist.refl _
  | cons c l ih =>
    exact fun p => List.Sublist.trans piStepV02_sublist (ih (piStepV02 p c))

theorem process_inputs_v02_inv {st : BState02} {inputs : List Int} (h : Inv02 st) :
    Inv02 (process_inputs_v02 st inputs) :=
  piFold02_inv (uniqueSortedInputs inputs) (st, none) h

theorem process_inputs_v02_sublist {st : BState02} {inputs : List Int} :
    List.Sublist st.nodes (process_inputs_v02 st inputs).nodes :=
  piFold02_sublist (uniqueSortedInputs inputs) (st, none)

theorem process_outputs_v02_inv :
    ∀ (outputs : List Int) (st : BState02), Inv02 st →
      Inv02 (process_outputs_v02 st outputs) := by
  intro outputs
  induction outputs with
  | nil => exact fun st h => h
  | cons a l ih =>
    intro st h
    unfold process_outputs_v02 at ih ⊢
    simp only [List.foldl_cons]
    exact ih _ (lookupOrInsert_inv h)

theorem process_outputs_v02_sublist :
    ∀ (outputs : List Int) (st : BState02),
      List.Sublist st.nodes (process_outputs_v02 st outputs).nodes := by
  intro outputs
  induction outputs with
  | nil => exact fun st => List.Sublist.refl _
  | cons a l ih =>
    intro st
    unfold process_outputs_v02 at ih ⊢
    simp only [List.foldl_cons]
    exact List.Sublist.trans lookupOrInsert_sublist (ih _)

theorem process_tx_v02_inv {st : BState02} {t : Tx} (h : Inv02 st) :
    Inv02 (process_tx_v02 st t) :=
  process_outputs_v02_inv t.outputs _ (process_inputs_v02_inv h)

theorem process_tx_v02_sublist {st : BState02} {t : Tx} :
    List.Sublist st.nodes (process_tx_v02 st t).nodes :=
  List.Sublist.trans process_inputs_v02_sublist (process_outputs_v02_sublist t.outputs _)

theorem buildV02_fold_inv :
    ∀ (txs : List Tx) (st : BState02), Inv02 st → Inv02 (txs.foldl process_tx_v02 st) := by
  intro txs
  induction txs with
  | nil => exact fun st h => h
  | cons t txs ih => exact fun st h => ih (process_tx_v02 st t) (process_tx_v02_inv h)

theorem buildV02_inv (txs : List Tx) : Inv02 (buildV02 txs) := by
  refine buildV02_fold_inv txs ⟨[], 0, []⟩ ?_
  refine ⟨rfl, rfl, List.nodup_nil⟩

theorem buildV02_append_sublist (txs : List Tx) (t : Tx) :
    List.Sublist (buildV02 txs).nodes (buildV02 (txs ++ [t])).nodes := by
  unfold buildV02
  rw [List.foldl_append]
  simp only [List.foldl_cons, List.foldl_nil]
  exact process_tx_v02_sublist

/-! ## Lemmas about the character-level builder -/

theorem firstFieldAddr_some {t : List Char} (h : goodToken t = true) :
    ∃ a, firstFieldAddr t = some a := by
  unfold goodToken at h
  unfold firstFieldAddr
  match heq : tokSplit ',' t with
  | [] => rw [heq] at h; simp at h
  | f :: rest => exact ⟨atoiChars f, rfl⟩

theorem piStepStr_fold_some {first : Int} :
    ∀ (l : List (List Char)) (s : Int × List (Int × Int)),
      (∀ t ∈ l, goodToken t = true) →
      ∃ r, l.foldl (piStepStr first) (some s) = some r := by
  intro l
  induction l with
  | nil => exact fun s _ => ⟨s, rfl⟩
  | cons t l ih =>
    intro s hl
    obtain ⟨a, ha⟩ := firstFieldAddr_some (hl t (List.mem_cons_self t l))
    have hstep : piStepStr first (some s) t = some (piStepV1 first s a) := by
      unfold piStepStr
      rw [ha]
    simp only [List.foldl_cons, hstep]
    exact ih (piStepV1 first s a) (fun u hu => hl u (List.mem_cons_of_mem t hu))

theorem process_inputs_str_some {inputs : List Char} {m : Int} {edges : List (Int × Int)}
    (hne : tokSplit ';' inputs ≠ [])
    (hgood : ∀ t ∈ tokSplit ';' inputs, goodToken t = true) :
    ∃ r, process_inputs_str inputs m edges = some r := by
  unfold process_inputs_str
  match heq : tokSplit ';' inputs with
  | [] => exact absurd heq hne
  | tok :: rest =>
    rw [heq] at hgood
    obtain ⟨a, ha⟩ := firstFieldAddr_some (hgood tok (List.mem_cons_self tok rest))
    dsimp only
    rw [ha]
    exact piStepStr_fold_some rest _ (fun u hu => hgood u (List.mem_cons_of_mem tok hu))

theorem poStepStr_fold_some :
    ∀ (l : List (List Char)) (m : Int), (∀ t ∈ l, goodToken t = true) →
      ∃ r, l.foldl poStepStr (some m) = some r := by
  intro l
  induction l with
  | nil => exact fun m _ => ⟨m, rfl⟩
  | cons t l ih =>
    intro m hl
    obtain ⟨a, ha⟩ := firstFieldAddr_some (hl t (List.mem_cons_self t l))
    have hstep : poStepStr (some m) t = some (if a ≥ m then a else m) := by
      unfold poStepStr
      rw [ha]
    simp only [List.foldl_cons, hstep]
    exact ih _ (fun u hu => hl u (List.mem_cons_of_mem t hu))

theorem process_outputs_str_some {outputs : List Char} {m : Int}
    (hgood : ∀ t ∈ tokSplit ';' outputs, goodToken t = true) :
    ∃ r, process_outputs_str outputs m = some r :=
  poStepStr_fold_some (tokSplit ';' outputs) m hgood

theorem process_line_str_some {line : List Char} {m : Int} {edges : List (Int × Int)}
    (h : goodLine line = true) :
    ∃ r, process_line_str line m edges = some r := by
  unfold goodLine at h
  rw [Bool.and_eq_true] at h
  obtain ⟨h1, h2⟩ := h
  unfold process_line_str
  have hst1 : ∃ r1, (match (splitOnChar ':' line).get? 1 with
      | some t => if t.isEmpty then some (m, edges) else process_inputs_str t m edges
      | none => some (m, edges)) = some r1 := by
    match hq : (splitOnChar ':' line).get? 1 with
    | none => exact ⟨(m, edges), rfl⟩
    | some t =>
      rw [hq] at h1
      dsimp only at h1 ⊢
      by_cases hemp : t.isEmpty
      · rw [if_pos hemp]
        exact ⟨(m, edges), rfl⟩
      · rw [if_neg hemp]
        rw [Bool.or_eq_true] at h1
        rcases h1 with h1 | h1
        · exact absurd h1 hemp
        · rw [Bool.and_eq_true] at h1
          refine process_inputs_str_some ?_ ?_
          · intro hc
            rcases h1 with ⟨h1a, _⟩
            rw [hc] at h1a
            simp at h1a
          · intro u hu
            exact (List.all_eq_true.mp h1.2) u hu
  obtain ⟨r1, hr1⟩ := hst1
  obtain ⟨m1, e1⟩ := r1
  rw [hr1]
  dsimp only
  match hq2 : (splitOnChar ':' line).get? 2 with
  | none => exact ⟨(m1, e1), rfl⟩
  | some t =>
    rw [hq2] at h2
    dsimp only at h2 ⊢
    by_cases hemp : t.isEmpty
    · rw [if_pos hemp]
      exact ⟨(m1, e1), rfl⟩
    · rw [if_neg hemp]
      rw [Bool.or_eq_true] at h2
      rcases h2 with h2 | h2
      · exact absurd h2 hemp
      · obtain ⟨m2, hm2⟩ :=
          @process_outputs_str_some t m1 (List.all_eq_true.mp h2)
        rw [hm2]
        exact ⟨(m2, e1), rfl⟩

theorem builderRunStr_fold_some :
    ∀ (lines : List (List Char)) (st : Int × List (Int × Int)),
      (∀ l ∈ lines, goodLine l = true) →
      ∃ r, lines.foldlM (fun st l => process_line_str l st.1 st.2) st = some r := by
  intro lines
  induction lines with
  | nil => exact fun st _ => ⟨st, rfl⟩
  | cons l lines ih =>
    intro st hl
    obtain ⟨r1, hr1⟩ := @process_line_str_some l st.1 st.2
      (hl l (List.mem_cons_self l lines))
    simp only [List.foldlM_cons, hr1, Option.bind_some, Option.pure_def]
    exact ih r1 (fun u hu => hl u (List.mem_cons_of_mem l hu))

theorem builderRunStr_some {lines : List (List Char)} (h : WellTokened lines) :
    ∃ st, builderRunStr lines = some st :=
  builderRunStr_fold_some lines (0, []) h

/-! ## Lemmas composing builder v1.0 with the analyzer -/

theorem finalEdgesV1_coord_bounds {txs : List Tx}
    (hpos : ∀ t ∈ txs, ∀ x ∈ t.inputs ++ t.outputs, 0 ≤ x) :
    ∀ e ∈ finalEdgesV1 txs,
      0 ≤ e.1 ∧ e.1 ≤ maxIdV1 txs ∧ 0 ≤ e.2 ∧ e.2 ≤ maxIdV1 txs := by
  intro e he
  obtain ⟨t, ht, f, a, hf, ha, hne, rfl⟩ := rawEdgesV1_shape (mem_finalEdgesV1_iff.mp he)
  have hf0 := hpos t ht f (List.mem_append_left _ hf)
  have ha0 := hpos t ht a (List.mem_append_left _ ha)
  have hfM : f ≤ maxIdV1 txs := le_maxIdV1 ht (List.mem_append_left _ hf)
  have haM : a ≤ maxIdV1 txs := le_maxIdV1 ht (List.mem_append_left _ ha)
  have k1 : (0:Int) ≤ min f a := le_min hf0 ha0
  have k2 : min f a ≤ f := min_le_left f a
  have k3 : max f a ≤ maxIdV1 txs := max_le hfM haM
  have k4 : f ≤ max f a := le_max_left f a
  show 0 ≤ min f a ∧ min f a ≤ maxIdV1 txs ∧ 0 ≤ max f a ∧ max f a ≤ maxIdV1 txs
  omega

theorem natEdges_bounded {txs : List Tx}
    (hpos : ∀ t ∈ txs, ∀ x ∈ t.inputs ++ t.outputs, 0 ≤ x) :
    ∀ en ∈ (finalEdgesV1 txs).map edgeNat,
      en.1 < (numNodesV1 txs).toNat ∧ en.2 < (numNodesV1 txs).toNat := by
  intro en hen
  obtain ⟨e, he, rfl⟩ := List.mem_map.mp hen
  obtain ⟨k1, k2, k3, k4⟩ := finalEdgesV1_coord_bounds hpos e he
  have hm := maxIdV1_nonneg txs
  unfold edgeNat numNodesV1
  constructor <;> simp only <;> omega

theorem addr_lt_numNodes {txs : List Tx} {t : Tx} {a : Int}
    (ht : t ∈ txs) (ha : a ∈ t.inputs ++ t.outputs) (h0 : 0 ≤ a) :
    a.toNat < (numNodesV1 txs).toNat := by
  have h1 : a ≤ maxIdV1 txs := le_maxIdV1 ht ha
  unfold numNodesV1
  omega

theorem adjStep_of_inputs {txs : List Tx} {t : Tx} {f a : Int} {rest : List Int}
    (ht : t ∈ txs) (heq : t.inputs = f :: rest) (ha : a ∈ rest) (hne : a ≠ f) :
    adjStep ((finalEdgesV1 txs).map edgeNat) f.toNat a.toNat := by
  have hmem : (min f a, max f a) ∈ finalEdgesV1 txs :=
    mem_finalEdgesV1_iff.mpr (mem_rawEdgesV1 ht heq ha hne)
  rcases le_total f a with hle | hle
  · left
    rw [show ((f.toNat, a.toNat) : Nat × Nat) = edgeNat (min f a, max f a) by
      unfold edgeNat
      rw [min_eq_left hle, max_eq_right hle]]
    exact List.mem_map_of_mem edgeNat hmem
  · right
    rw [show ((a.toNat, f.toNat) : Nat × Nat) = edgeNat (min f a, max f a) by
      unfold edgeNat
      rw [min_eq_right hle, max_eq_left hle]]
    exact List.mem_map_of_mem edgeNat hmem

theorem reach_first_of_inputs {txs : List Tx} {t : Tx} {f a : Int} {rest : List Int}
    (ht : t ∈ txs) (heq : t.inputs = f :: rest) (ha : a ∈ t.inputs) :
    Reach ((finalEdgesV1 txs).map edgeNat) a.toNat f.toNat := by
  by_cases hne : a = f
  · subst hne
    exact Reach.refl _
  · have ha' : a ∈ rest := by
      rw [heq] at ha
      rcases List.mem_cons.mp ha with rfl | ha'
      · exact absurd rfl hne
      · exact ha'
    exact Reach.tail (Reach.refl _)
      (adjStep_symm (adjStep_of_inputs ht heq ha' hne))



/-! ## Claim theorems -/

/-- C1, counterexample: in the current builder (src/builder.cpp) the claim
fails.  On the stream with one transaction whose inputs are the addresses
0 and 2, exactly 2 distinct addresses are observed, yet the builder writes
`N = max_id + 1 = 3` and stores the edge `(0, 2)` using the raw address 2
as a node id, so the address-to-node-id assignment (the identity) is not a
bijection onto `[0, N)` with `N` the number of distinct addresses. -/
theorem c1_counterexample :
    numNodesV1 [⟨[0, 2], []⟩] = 3 ∧
    (observedAddrs [⟨[0, 2], []⟩]).length = 2 ∧
    finalEdgesV1 [⟨[0, 2], []⟩] = [(0, 2)] := by
  decide

/-- C1, amended: the counter-based address index the claim describes is
the one of the v0.2 builder (src/unnamed/part_003).  For it the claim
holds: after any run, the id counter equals the number of mapped
addresses, the assigned ids are exactly `0, 1, ..., N-1` in order of first
processing, no address is mapped twice (a total bijection from the mapped
addresses onto `[0, N)`), and extending the stream never renumbers an
existing association.  (The v1.0 builder instead uses each address itself
as its node id and `N = max_id + 1`.) -/
theorem c1_amended (txs : List Tx) :
    (buildV02 txs).idCount = (buildV02 txs).nodes.length ∧
    (buildV02 txs).nodes.map Prod.snd = List.range (buildV02 txs).nodes.length ∧
    ((buildV02 txs).nodes.map Prod.fst).Nodup ∧
    ∀ t : Tx, List.Sublist (buildV02 txs).nodes (buildV02 (txs ++ [t])).nodes := by
  obtain ⟨h1, h2, h3⟩ := buildV02_inv txs
  exact ⟨h1, h2, h3, fun t => buildV02_append_sublist txs t⟩

/-- C2: for every graph `(N, E)` read by the analyzer (its edges staying
inside `[0, N)`, which is what igraph/lemon graph construction admits),
the component assignment gives two nodes of `[0, N)` the same component id
iff they are connected by a path of edges.  The component computation is
the external igraph/lemon call, modelled from the spec by `comp`. -/
theorem c2_components_iff (N : Nat) (E : List (Nat × Nat)) (u v : Nat)
    (hE : ∀ e ∈ E, e.1 < N ∧ e.2 < N) (hu : u < N) (hv : v < N) :
    comp N E u = comp N E v ↔ Reach E u v :=
  ⟨reach_of_comp_eq, comp_eq_of_reach hE hu hv⟩

theorem c2_witness :
    (∀ e ∈ [((0, 1) : Nat × Nat)], e.1 < 2 ∧ e.2 < 2) ∧ 0 < 2 ∧ 1 < 2 ∧
    (comp 2 [(0, 1)] 0 = comp 2 [(0, 1)] 1 ↔ Reach [(0, 1)] 0 1) :=
  ⟨by decide, by decide, by decide,
    c2_components_iff 2 [(0, 1)] 0 1 (by decide) (by decide) (by decide)⟩

/-- C3: the edge list persisted by the builder (src/builder.cpp) contains
no self-loops and no two entries that denote the same unordered pair,
in either orientation: multiplicity in the stream collapses to one stored
edge. -/
theorem c3_edge_invariants (txs : List Tx) :
    (∀ e ∈ finalEdgesV1 txs, e.1 ≠ e.2) ∧
    List.Pairwise
      (fun e f => ¬(e.1 = f.1 ∧ e.2 = f.2) ∧ ¬(e.1 = f.2 ∧ e.2 = f.1))
      (finalEdgesV1 txs) := by
  constructor
  · intro e he
    exact ne_of_lt (finalEdgesV1_fst_lt_snd he)
  · refine List.Pairwise.imp_of_mem ?_ (nodup_finalEdgesV1 txs)
    intro a b ha hb hne
    have ha' := finalEdgesV1_fst_lt_snd ha
    have hb' := finalEdgesV1_fst_lt_snd hb
    constructor
    · intro h
      exact hne (Prod.ext h.1 h.2)
    · intro h
      obtain ⟨h1, h2⟩ := h
      omega

theorem c3_witness :
    ((1, 2) ∈ finalEdgesV1 [(⟨[1, 2], []⟩ : Tx), ⟨[2, 1], []⟩] ∧
      ((1 : Int), (2 : Int)).1 ≠ ((1 : Int), (2 : Int)).2) ∧
    List.Pairwise
      (fun e f => ¬(e.1 = f.1 ∧ e.2 = f.2) ∧ ¬(e.1 = f.2 ∧ e.2 = f.1))
      (finalEdgesV1 [(⟨[1, 2], []⟩ : Tx), ⟨[2, 1], []⟩]) :=
  ⟨⟨by decide, (c3_edge_invariants [⟨[1, 2], []⟩, ⟨[2, 1], []⟩]).1 (1, 2) (by decide)⟩,
    (c3_edge_invariants [⟨[1, 2], []⟩, ⟨[2, 1], []⟩]).2⟩

/-- C4: for a transaction of the stream and any two of its input
addresses, running the builder (src/builder.cpp) and then the analyzer
(src/clustering.cpp) on the produced graph file assigns both addresses
the same component id.  The range hypotheses say the input data stays
within the 32-bit address domain of the tool. -/
theorem c4_shared_component (txs : List Tx) (t : Tx) (a b : Int)
    (ht : t ∈ txs) (ha : a ∈ t.inputs) (hb : b ∈ t.inputs)
    (hpos : ∀ u ∈ txs, ∀ x ∈ u.inputs ++ u.outputs, 0 ≤ x ∧ x ≤ 2147483646)
    (hM : numEdgesV1 txs < 2147483648) :
    ∃ g : IGraph, read_graph_binary (builderFileV1 txs) 0 = some g ∧
      compOfIGraph g a = compOfIGraph g b := by
  refine ⟨⟨numNodesV1 txs, finalEdgesV1 txs⟩, read_builderFileV1 txs hpos hM, ?_⟩
  show comp (numNodesV1 txs).toNat ((finalEdgesV1 txs).map edgeNat) a.toNat =
    comp (numNodesV1 txs).toNat ((finalEdgesV1 txs).map edgeNat) b.toNat
  have hpos0 : ∀ u ∈ txs, ∀ x ∈ u.inputs ++ u.outputs, 0 ≤ x :=
    fun u hu x hx => (hpos u hu x hx).1
  have hE := natEdges_bounded hpos0
  have hu : a.toNat < (numNodesV1 txs).toNat :=
    addr_lt_numNodes ht (List.mem_append_left _ ha)
      (hpos t ht a (List.mem_append_left _ ha)).1
  have hv : b.toNat < (numNodesV1 txs).toNat :=
    addr_lt_numNodes ht (List.mem_append_left _ hb)
      (hpos t ht b (List.mem_append_left _ hb)).1
  refine comp_eq_of_reach hE hu hv ?_
  cases heq : t.inputs with
  | nil =>
    rw [heq] at ha
    simp at ha
  | cons f rest =>
    have hra : Reach ((finalEdgesV1 txs).map edgeNat) a.toNat f.toNat :=
      reach_first_of_inputs ht heq ha
    have hrb : Reach ((finalEdgesV1 txs).map edgeNat) b.toNat f.toNat :=
      reach_first_of_inputs ht heq hb
    exact hra.trans hrb.symm

theorem c4_witness :
    ((⟨[1, 2], []⟩ : Tx) ∈ [(⟨[1, 2], []⟩ : Tx)]) ∧
    (∃ g : IGraph, read_graph_binary (builderFileV1 [⟨[1, 2], []⟩]) 0 = some g ∧
      compOfIGraph g 1 = compOfIGraph g 2) :=
  ⟨by decide,
    c4_shared_component [⟨[1, 2], []⟩] ⟨[1, 2], []⟩ 1 2 (by decide) (by decide)
      (by decide) (by decide) (by decide)⟩

/-- C5, counterexample: the builder does not abort on a malformed address
field.  On the single-line stream `tx:abc,5:` the inputs entry `abc,5` has
the non-numeric first field `abc`; `atoi` silently yields 0, the run
completes, and a complete well-formed graph file with `N = 1`, `M = 0` is
written — the malformed field has been treated as address 0 rather than
rejected. -/
theorem c5_counterexample :
    builderFileStr ["tx:abc,5:".toList] = some [0, 0, 0, 1, 0, 0, 0, 0] ∧
    atoiChars "abc".toList = 0 := by
  decide

/-- C5, amended: the character-level builder has no failure path for
unparseable addresses: on every stream whose `strtok` tokenization is
non-degenerate (each entry has a nonempty first comma field — its content
may be arbitrary junk), the run completes and writes the usual graph
file; `atoi` maps a field without leading digits to address 0. -/
theorem c5_no_abort (lines : List (List Char)) (h : WellTokened lines) :
    ∃ st, builderRunStr lines = some st ∧
      builderFileStr lines = some (fileOfStateV1 st.1 st.2) := by
  obtain ⟨st, hst⟩ := builderRunStr_some h
  refine ⟨st, hst, ?_⟩
  unfold builderFileStr
  rw [hst]
  rfl

theorem c5_witness :
    WellTokened ["tx:abc,5:".toList] ∧
    ∃ st, builderRunStr ["tx:abc,5:".toList] = some st ∧
      builderFileStr ["tx:abc,5:".toList] = some (fileOfStateV1 st.1 st.2) :=
  ⟨by decide, c5_no_abort ["tx:abc,5:".toList] (by decide)⟩

/-- C6, counterexample: the analyzer does not check the edge-count field
against the file size.  On the 8-byte file with header `N = 2`, `M = 1`
and no edge records at all, `read_graph_binary` reports no error and
returns a graph: the missing record surfaces as the `(0, 0)` left in the
zero-initialized edge vector. -/
theorem c6_counterexample :
    read_graph_binary [0, 0, 0, 2, 0, 0, 0, 1] 0 = some ⟨2, [(0, 0)]⟩ := by
  decide

/-- C6, amended: the clustering reader performs no consistency check
between the header field `M` and the number of records: for any header
and any record section with at most `M` records it returns a graph whose
edge vector is the records padded with `(0, 0)` up to length `M`
(more than `M` records would overrun the igraph vector — undefined).
No corruption error exists in the read path. -/
theorem c6_no_size_check (N M : Int) (recs : List (Int × Int))
    (hN1 : -2147483648 ≤ N) (hN2 : N < 2147483648)
    (hM1 : -2147483648 ≤ M) (hM2 : M < 2147483648)
    (hrecs : ∀ e ∈ recs, -2147483648 ≤ e.1 ∧ e.1 < 2147483648 ∧
      -2147483648 ≤ e.2 ∧ e.2 < 2147483648) :
    read_graph_binary (enc32 N ++ (enc32 M ++ encodeEdges recs)) 0 =
      some ⟨N, recs ++ List.replicate (M.toNat - recs.length) (0, 0)⟩ := by
  simp only [read_graph_binary, parse32_enc32 _ hN1 hN2, parse32_enc32 _ hM1 hM2,
    parseEdges_encode _ hrecs, padEdges, if_true]

theorem c6_witness :
    ((-2147483648 : Int) ≤ 2 ∧ (2 : Int) < 2147483648) ∧
    read_graph_binary (enc32 2 ++ (enc32 2 ++ encodeEdges [(0, 1)])) 0 =
      some ⟨2, [(0, 1), (0, 0)]⟩ :=
  ⟨by decide,
    c6_no_size_check 2 2 [(0, 1)] (by decide) (by decide) (by decide) (by decide)
      (by decide)⟩

/-- C7: the clustering output of src/clustering.cpp has exactly one row
`(node_id, component_id)` per node, the node ids covering `[0, N)` once
each in ascending order (the loop prints `i, comp_map[i]` for
`i = 0, ..., N-1`). -/
theorem c7_output_rows (N : Nat) (E : List (Nat × Nat)) :
    (outputRows N E).map Prod.fst = List.range N ∧ (outputRows N E).length = N := by
  unfold outputRows
  constructor
  · rw [List.map_map]
    exact List.map_id (List.range N)
  · simp

/-- C8: writer and reader agree on the byte order (both apply
`__builtin_bswap32`, modelled as big-endian), so decoding a builder file
recovers exactly the serialized node count, edge count and edge list
(the edge count being the length of the recovered list). -/
theorem c8_roundtrip (txs : List Tx)
    (hpos : ∀ t ∈ txs, ∀ a ∈ t.inputs ++ t.outputs, 0 ≤ a ∧ a ≤ 2147483646)
    (hM : numEdgesV1 txs < 2147483648) :
    read_graph_binary (builderFileV1 txs) 0 = some ⟨numNodesV1 txs, finalEdgesV1 txs⟩ :=
  read_builderFileV1 txs hpos hM

theorem c8_witness :
    (numEdgesV1 [(⟨[1, 2], []⟩ : Tx)] < 2147483648) ∧
    read_graph_binary (builderFileV1 [(⟨[1, 2], []⟩ : Tx)]) 0 =
      some ⟨numNodesV1 [(⟨[1, 2], []⟩ : Tx)], finalEdgesV1 [(⟨[1, 2], []⟩ : Tx)]⟩ :=
  ⟨by decide, c8_roundtrip [⟨[1, 2], []⟩] (by decide) (by decide)⟩

/-- C9: the builder's output is a function of the input stream alone.
The only unspecified behavior in src/builder.cpp `main` is the order
`std::sort` leaves equal elements in; since the comparison on
`pair<int,int>` is a total order, every sorted permutation of the
collected edge list is one and the same list, so any two runs on the same
parsed stream write byte-identical files (and the v1.0 address-to-id
assignment, the identity, is trivially identical across runs). -/
theorem c9_determinism (txs : List Tx) (l : List (Int × Int))
    (hp : l.Perm (rawEdgesV1 txs)) (hs : List.Sorted pairLe l) :
    enc32 (numNodesV1 txs) ++ enc32 (((dedupAdjacent l).length : Int)) ++
      encodeEdges (dedupAdjacent l) = builderFileV1 txs := by
  have hl : l = sortedEdgesV1 txs :=
    List.eq_of_perm_of_sorted (hp.trans (List.perm_insertionSort pairLe _).symm) hs
      (sorted_sortedEdgesV1 txs)
  rw [hl]
  rfl

theorem c9_witness :
    ([((1 : Int), (2 : Int))].Perm (rawEdgesV1 [(⟨[2, 1], []⟩ : Tx)])) ∧
    enc32 (numNodesV1 [(⟨[2, 1], []⟩ : Tx)]) ++
      enc32 (((dedupAdjacent [((1 : Int), (2 : Int))]).length : Int)) ++
      encodeEdges (dedupAdjacent [((1 : Int), (2 : Int))]) =
      builderFileV1 [(⟨[2, 1], []⟩ : Tx)] :=
  ⟨by decide, c9_determinism [⟨[2, 1], []⟩] [(1, 2)] (by decide) (by decide)⟩

/-- C10: in src/clustering.cpp, a nonzero `forced_nodes` (the third CLI
argument after `atoi`) replaces the header node count and nothing else:
the graph read with any `forced` equals the graph read with 0, with only
the node-count field swapped to `forced` when it is nonzero. -/
theorem c10_forced_nodes (bytes : List Nat) (forced : Int) :
    read_graph_binary bytes forced = (read_graph_binary bytes 0).map
      (fun g => ⟨if forced = 0 then g.n else forced, g.edges⟩) := by
  unfold read_graph_binary
  cases h0 : parse32 bytes with
  | none => simp [h0]
  | some w =>
    obtain ⟨w0, r1⟩ := w
    cases h1 : parse32 r1 with
    | none => simp [h0, h1]
    | some x =>
      obtain ⟨w1, r2⟩ := x
      by_cases hf : forced = 0 <;> simp [h0, h1, hf]

end BAC
